import Mathlib

/-!
Verification of the hierarchical timing-aggregation utility in
`src/dpvo/utils.py` (module-global `all_times`, class `Timer`, class `_Node`,
function `print_timing_summary`).

Embedding conventions:
* Durations are Python floats in the source; they are modelled as exact
  rationals represented by a numerator/denominator pair (`Frac`), so that all
  report computations are computable by the kernel.  `Frac.val` gives the
  represented rational value in `ℚ`.
* The module-global `all_times : dict[str, list]` (a `defaultdict(list)`) is
  modelled as an insertion-ordered association list `AllTimes`; Python dicts
  preserve insertion order and have unique keys.
* `fullname.split('.')` (separator a single dot) is modelled by `splitDot`,
  splitting the character list on `'.'`; like Python, it returns `[""]` on the
  empty string and keeps empty segments (`"a..b" ↦ ["a", "", "b"]`).
* `_Node` is modelled by the nested inductive `Node` (the leading underscore is
  dropped); its `defaultdict(_Node)` children are an insertion-ordered
  association list, with `defaultdict` access-and-mutate modelled by
  lookup-with-default (`getChild`) followed by write-back (`setChild`), which
  appends the key at the end on first access exactly as `defaultdict` does.
* `print` calls are collected into a list of emitted strings;
  `print_timing_summary` returns that list together with the (unchanged)
  recorder state, making its effect on the module-global explicit.
* CUDA events of `Timer` are modelled by `Event`, an optionally-recorded
  timestamp; the device clock is an explicit parameter of `enter`/`exit`.
  Operations that would raise in Python (reading a marker of a disabled
  timer, taking elapsed time of an unrecorded event) return `none`.
-/

/-- Exact rational value `num / den`, `den` positive by construction in every
value the embedding builds.  Unlike Mathlib's `Rat`, its operations avoid
`Nat.gcd` and therefore evaluate inside the kernel. -/
structure Frac where
  num : Int
  den : Nat
deriving DecidableEq

/-- The rational value represented by a `Frac`. -/
def Frac.val (a : Frac) : ℚ := (a.num : ℚ) / (a.den : ℚ)

/-- Addition on `Frac` (cross multiplication, no normalisation). -/
def Frac.add (a b : Frac) : Frac :=
  ⟨a.num * b.den + b.num * a.den, a.den * b.den⟩

/-- Subtraction on `Frac`; used for the elapsed time between two events. -/
def Frac.sub (a b : Frac) : Frac :=
  ⟨a.num * b.den - b.num * a.den, a.den * b.den⟩

/-- Division of a `Frac` by a natural number; models `total/count`. -/
def Frac.divNat (a : Frac) (n : Nat) : Frac := ⟨a.num, a.den * n⟩

/-- Python's `sum` builtin on a list of durations: left fold of `+` from `0`. -/
def fsum (l : List Frac) : Frac := l.foldl Frac.add ⟨0, 1⟩

/-- Floor of the represented value (`den` positive). -/
def Frac.floor (a : Frac) : Int := a.num.fdiv a.den

/-- Round-half-to-even of the represented value, the rounding Python's float
formatting uses. -/
def Frac.roundHalfEven (a : Frac) : Int :=
  let f := a.floor
  let r2 := 2 * (a.num - f * a.den)
  if r2 < (a.den : Int) then f
  else if (a.den : Int) < r2 then f + 1
  else if f % 2 = 0 then f else f + 1

/-- Split a character list on the character `c`, keeping empty groups:
the model of Python's `str.split` with a one-character separator. -/
def splitListOn (c : Char) : List Char → List (List Char)
  | [] => [[]]
  | a :: as =>
      if a = c then [] :: splitListOn c as
      else
        match splitListOn c as with
        | [] => [[a]]
        | g :: gs => (a :: g) :: gs

/-- `fullname.split('.')` from line 51 of the source. -/
def splitDot (s : String) : List String :=
  (splitListOn '.' s.toList).map (fun l => String.mk l)

/-- The type of the module-global `all_times : dict[str, list]`: an
insertion-ordered mapping from dotted name to recorded duration samples. -/
abbrev AllTimes : Type := List (String × List Frac)

/-- `all_times[name].append(v)`: append `v` to the list stored under `name`,
creating the entry (at the end, as `defaultdict` does) if it is missing. -/
def appendSample : AllTimes → String → Frac → AllTimes
  | [], name, v => [(name, [v])]
  | (k, l) :: rest, name, v =>
      if k = name then (k, l ++ [v]) :: rest
      else (k, l) :: appendSample rest name v

/-- A CUDA timing event: created unrecorded, `record` stamps it with the
current clock value. -/
structure Event where
  recorded : Option Frac
deriving DecidableEq

/-- The `Timer` context manager.  `start`/`stop` are `none` when the
corresponding attribute was never created (the `enabled=False` path of
`__init__` skips creating the events). -/
structure Timer where
  name : String
  enabled : Bool
  start : Option Event
  stop : Option Event
deriving DecidableEq

/-- `Timer.__init__`: store name and flag; create the two (unrecorded) events
only when `enabled`. -/
def Timer.init (name : String) (enabled : Bool) : Timer :=
  { name := name
    enabled := enabled
    start := if enabled then some ⟨none⟩ else none
    stop := if enabled then some ⟨none⟩ else none }

/-- `Timer.__enter__`: when enabled, record the start event at the current
clock value `now`; accessing a never-created event is an error (`none`). -/
def Timer.enter (t : Timer) (now : Frac) : Option Timer :=
  if t.enabled then
    match t.start with
    | none => none
    | some _ => some { t with start := some ⟨some now⟩ }
  else some t

/-- `Timer.__exit__`: when enabled, record the end event at clock value `now`,
synchronise, compute `elapsed = start.elapsed_time(end)` and append it under
`t.name`; reading markers that were never created or recorded is an error
(`none`).  When disabled, nothing happens. -/
def Timer.exit (t : Timer) (now : Frac) (s : AllTimes) :
    Option (Timer × AllTimes) :=
  if t.enabled then
    match t.stop with
    | none => none
    | some _ =>
      match t.start with
      | none => none
      | some ev =>
        match ev.recorded with
        | none => none
        | some t0 =>
          some ({ t with stop := some ⟨some now⟩ },
                appendSample s t.name (now.sub t0))
  else some (t, s)

/-- The timing tree (`class _Node` of the source, underscore dropped):
`self_times` holds the samples attached exactly here, `children` is the
insertion-ordered `defaultdict(_Node)` of sub-nodes. -/
inductive Node where
  | mk (self_times : List Frac) (children : List (String × Node)) : Node

/-- Projection: the samples attached exactly at this node. -/
def Node.self_times : Node → List Frac
  | .mk s _ => s

/-- Projection: the ordered children mapping. -/
def Node.children : Node → List (String × Node)
  | .mk _ c => c

/-- Look a key up in the ordered children mapping. -/
def findChild : List (String × Node) → String → Option Node
  | [], _ => none
  | (k, c) :: rest, p => if k = p then some c else findChild rest p

/-- `defaultdict` read: the stored child, or a fresh empty node. -/
def getChild (ch : List (String × Node)) (p : String) : Node :=
  (findChild ch p).getD (.mk [] [])

/-- Write a child back: replace in place, or append at the end on a missing
key (where `defaultdict` inserted it on first access). -/
def setChild : List (String × Node) → String → Node → List (String × Node)
  | [], p, n => [(p, n)]
  | (k, c) :: rest, p, n =>
      if k = p then (k, n) :: rest else (k, c) :: setChild rest p n

/-- `_Node.extend(parts, values)`: with no parts left, extend `self_times`
with `values`; otherwise recurse into `children[parts[0]]`. -/
def Node.extend : Node → List String → List Frac → Node
  | n, [], vs => .mk (n.self_times ++ vs) n.children
  | n, p :: ps, vs =>
      .mk n.self_times
        (setChild n.children p ((getChild n.children p).extend ps vs))

/-- The tree-building loop of `print_timing_summary`:
`for fullname, lst in all_times.items(): root.extend(fullname.split('.'), lst)`. -/
def buildTree (s : AllTimes) : Node :=
  s.foldl (fun root kv => root.extend (splitDot kv.1) kv.2) (.mk [] [])

/-- Walk the tree along a path of segments. -/
def Node.nodeAt : Node → List String → Option Node
  | n, [] => some n
  | n, p :: ps =>
      match findChild n.children p with
      | none => none
      | some c => c.nodeAt ps

/-- The samples attached exactly at a path (empty when no node exists there). -/
def selfTimesAt (t : Node) (p : List String) : List Frac :=
  ((t.nodeAt p).map Node.self_times).getD []

/-- `total = sum(node.self_times)` (source line 57). -/
def Node.total (n : Node) : Frac := fsum n.self_times

/-- `count = len(node.self_times)` (source line 58). -/
def Node.count (n : Node) : Nat := n.self_times.length

/-- `avg = total/count if count else 0.0` (source line 59), as a function of
the sample list. -/
def avgOf (st : List Frac) : Frac :=
  if st.length = 0 then ⟨0, 1⟩ else (fsum st).divNat st.length

/-- `avg` of a node. -/
def Node.avg (n : Node) : Frac := avgOf n.self_times

/-- `"    " * indent`. -/
def indentStr : Nat → String
  | 0 => ""
  | n + 1 => "    " ++ indentStr n

/-- Python's `f"{s:<15s}"`: left-justify in a field of width 15 (strings of 15
or more characters are unchanged). -/
def padTo (w : Nat) (s : String) : String :=
  s ++ String.mk (List.replicate (w - s.length) ' ')

/-- Python's `f"{x:.0f}"` on the modelled rational: round half-to-even to an
integer and print it. -/
def fmtF0 (a : Frac) : String := toString a.roundHalfEven

/-- Render `n` hundredths as a fixed two-decimal string. -/
def hundredths (n : Nat) : String :=
  toString (n / 100) ++ "." ++
    (if n % 100 < 10 then "0" else "") ++ toString (n % 100)

/-- Python's `f"{x:.2f}"` on the modelled rational: round half-to-even at two
decimal places. -/
def fmtF2 (a : Frac) : String :=
  let m := Frac.roundHalfEven ⟨a.num * 100, a.den⟩
  if m < 0 then "-" ++ hundredths (-m).toNat else hundredths m.toNat

/-- The line `_print_exclusive` prints for a node with segment name `name` at
indentation level `indent` whose `self_times` is `st` (source lines 56-61):
`f"{pad}{name:<15s} total {total:.0f} ms   {count} runs   avg {avg:.2f} ms"`. -/
def fmtLine (name : String) (indent : Nat) (st : List Frac) : String :=
  indentStr indent ++ padTo 15 name ++ " total " ++ fmtF0 (fsum st) ++
    " ms   " ++ toString st.length ++ " runs   avg " ++ fmtF2 (avgOf st) ++
    " ms"

mutual

/-- `_print_exclusive(node, name, indent)`: emit a line when `name` is truthy
(non-empty), then recurse into the children in order at `indent + 1`. -/
def Node.lines : Node → String → Nat → List String
  | .mk st ch, name, indent =>
      (if name = "" then [] else [fmtLine name indent st]) ++
        childLines ch (indent + 1)

/-- The `for child_name, child in node.children.items()` loop of
`_print_exclusive`. -/
def childLines : List (String × Node) → Nat → List String
  | [], _ => []
  | (cn, c) :: rest, indent => Node.lines c cn indent ++ childLines rest indent

end

/-- `print_timing_summary()`: build the tree from the recorder state, print
the header and then the node lines starting from the (nameless) root; the
returned pair makes explicit that the module-global `all_times` is read but
never written. -/
def print_timing_summary (s : AllTimes) : List String × AllTimes :=
  ("\n=== timing summary ===" :: Node.lines (buildTree s) "" 0, s)

/-- The node lines of the report (everything after the header). -/
def nodeLinesOf (s : AllTimes) : List String :=
  Node.lines (buildTree s) "" 0

mutual

/-- Number of nodes of a tree. -/
def Node.size : Node → Nat
  | .mk _ ch => 1 + sizeChildren ch

/-- Number of nodes of a forest of children. -/
def sizeChildren : List (String × Node) → Nat
  | [] => 0
  | (_, c) :: rest => Node.size c + sizeChildren rest

end

mutual

/-- Number of nodes a `_print_exclusive` traversal starting at `(t, name)`
prints a line for: those whose segment name is non-empty. -/
def countNamed : Node → String → Nat
  | .mk _ ch, name => (if name = "" then 0 else 1) + countNamedChildren ch

/-- Forest version of `countNamed`. -/
def countNamedChildren : List (String × Node) → Nat
  | [] => 0
  | (cn, c) :: rest => countNamed c cn + countNamedChildren rest

end

/-- The ordered child names of the node at a path (empty when absent). -/
def childNamesAt (t : Node) (p : List String) : List String :=
  ((t.nodeAt p).map (fun n => n.children.map Prod.fst)).getD []

/-- `count` of the node at a path (zero when absent). -/
def countAt (t : Node) (p : List String) : Nat :=
  ((t.nodeAt p).map Node.count).getD 0

theorem selfTimesAt_empty_node (bs : List String) :
    selfTimesAt (.mk [] []) bs = [] := by
  cases bs <;>
    simp [selfTimesAt, Node.nodeAt, findChild, Node.self_times, Node.children]

theorem findChild_setChild (l : List (String × Node)) (a b : String) (n : Node) :
    findChild (setChild l a n) b = if b = a then some n else findChild l b := by
  induction l with
  | nil =>
    simp only [setChild, findChild]
    by_cases h : a = b
    · subst h
      simp
    · rw [if_neg h, if_neg (fun hh => h hh.symm)]
  | cons hd tl ih =>
    obtain ⟨k, c⟩ := hd
    simp only [setChild]
    by_cases hka : k = a
    · subst hka
      simp only [if_pos rfl, findChild]
      by_cases hkb : k = b
      · subst hkb
        simp
      · rw [if_neg hkb, if_neg (fun hh => hkb hh.symm), if_neg hkb]
    · rw [if_neg hka]
      simp only [findChild]
      by_cases hkb : k = b
      · subst hkb
        rw [if_pos rfl, if_neg hka, if_pos rfl]
      · rw [if_neg hkb, ih, if_neg hkb]

theorem selfTimesAt_cons (t : Node) (b : String) (bs : List String) :
    selfTimesAt t (b :: bs) = selfTimesAt (getChild t.children b) bs := by
  cases t with
  | mk st ch =>
    cases h : findChild ch b with
    | none =>
      have h1 : (Node.mk st ch).nodeAt (b :: bs) = none := by
        simp [Node.nodeAt, Node.children, h]
      have h2 : getChild (Node.children (.mk st ch)) b = .mk [] [] := by
        simp [getChild, Node.children, h]
      rw [h2, selfTimesAt_empty_node]
      simp [selfTimesAt, h1]
    | some c =>
      have h1 : (Node.mk st ch).nodeAt (b :: bs) = c.nodeAt bs := by
        simp [Node.nodeAt, Node.children, h]
      have h2 : getChild (Node.children (.mk st ch)) b = c := by
        simp [getChild, Node.children, h]
      rw [h2]
      simp [selfTimesAt, h1]

theorem selfTimesAt_extend (q : List String) (t : Node) (vs : List Frac)
    (p : List String) :
    selfTimesAt (t.extend q vs) p =
      if p = q then selfTimesAt t p ++ vs else selfTimesAt t p := by
  induction q generalizing t p with
  | nil =>
    cases t with
    | mk st ch =>
      cases p with
      | nil =>
        simp [selfTimesAt, Node.extend, Node.nodeAt, Node.self_times,
          Node.children]
      | cons b bs =>
        rw [selfTimesAt_cons, selfTimesAt_cons]
        simp [Node.extend, Node.children, Node.self_times]
  | cons a as ih =>
    cases t with
    | mk st ch =>
      cases p with
      | nil =>
        simp [selfTimesAt, Node.extend, Node.nodeAt, Node.self_times,
          Node.children]
      | cons b bs =>
        rw [selfTimesAt_cons, selfTimesAt_cons]
        simp only [Node.extend, Node.children, Node.self_times]
        have hget : getChild (setChild ch a ((getChild ch a).extend as vs)) b =
            if b = a then (getChild ch a).extend as vs else getChild ch b := by
          simp only [getChild, findChild_setChild]
          by_cases hba : b = a <;> simp [hba]
        rw [hget]
        by_cases hba : b = a
        · subst hba
          rw [if_pos rfl, ih]
          by_cases hbs : bs = as
          · simp [hbs]
          · have : ¬ (b :: bs = b :: as) := by simp [hbs]
            simp [hbs, this]
        · have : ¬ (b :: bs = a :: as) := by simp [hba]
          simp [hba, this]

theorem selfTimesAt_foldl (l : AllTimes) (t : Node) (p : List String) :
    selfTimesAt
        (l.foldl (fun root kv => root.extend (splitDot kv.1) kv.2) t) p =
      selfTimesAt t p ++
        ((l.filter (fun kv => splitDot kv.1 == p)).map Prod.snd).flatten := by
  induction l generalizing t with
  | nil => simp
  | cons kv rest ih =>
    obtain ⟨k, v⟩ := kv
    simp only [List.foldl_cons, List.filter_cons]
    rw [ih, selfTimesAt_extend]
    by_cases h : splitDot k = p
    · simp only [h, if_pos rfl, beq_self_eq_true, if_true, List.map_cons,
        List.flatten_cons, List.append_assoc]
    · have h' : ¬ p = splitDot k := fun hh => h hh.symm
      have hb : (splitDot k == p) = false := by
        simp [h]
      simp [h', hb]

theorem countAt_eq_length (t : Node) (p : List String) :
    countAt t p = (selfTimesAt t p).length := by
  simp only [countAt, selfTimesAt]
  cases t.nodeAt p with
  | none => simp
  | some n => simp [Node.count]

/-- C1: after building the tree from the recorder state, the `self_times` of
the node at path `p` is exactly the concatenation (in recorder order) of the
sample lists of the recorded names whose split on `"."` equals `p`, and the
`count` the report prints for that node is the number of samples recorded
under exactly that path. -/
theorem self_samples_exact_path (s : AllTimes) (p : List String) :
    selfTimesAt (buildTree s) p =
        ((s.filter (fun kv => splitDot kv.1 == p)).map Prod.snd).flatten ∧
      countAt (buildTree s) p =
        (((s.filter (fun kv => splitDot kv.1 == p)).map Prod.snd).flatten).length := by
  have h := selfTimesAt_foldl s (.mk [] []) p
  rw [selfTimesAt_empty_node, List.nil_append] at h
  refine ⟨h, ?_⟩
  rw [countAt_eq_length]
  exact congrArg List.length h

/-- The recorder state of the C2 scenario: `[10.0, 20.0]` under
`"stage1.sub"` and `[5.0]` under `"stage1"`. -/
def stageState : AllTimes :=
  [("stage1.sub", [⟨10, 1⟩, ⟨20, 1⟩]), ("stage1", [⟨5, 1⟩])]

/-- C2: on the scenario state, the report's tree has a node `"stage1"` with
total 5.0, count 1, avg 5.0, whose child `"sub"` has total 30.0, count 2,
avg 15.0. -/
theorem scenario_stage1_report :
    ∃ n1 n2, (buildTree stageState).nodeAt ["stage1"] = some n1 ∧
      findChild n1.children "sub" = some n2 ∧
      n1.total.val = 5 ∧ n1.count = 1 ∧ n1.avg.val = 5 ∧
      n2.total.val = 30 ∧ n2.count = 2 ∧ n2.avg.val = 15 := by
  refine ⟨Node.mk [⟨5, 1⟩] [("sub", Node.mk [⟨10, 1⟩, ⟨20, 1⟩] [])],
    Node.mk [⟨10, 1⟩, ⟨20, 1⟩] [], rfl, rfl, ?_, rfl, ?_, ?_, rfl, ?_⟩ <;>
    norm_num [Node.total, Node.avg, Node.count, avgOf, fsum, Frac.add,
      Frac.divNat, Frac.val, List.foldl, Node.self_times]

/-- C3 counterexample: recording `[3.0]` under the empty name does not land in
the root's `self_times` (which stays empty); it lands at the child of root
named `""`, because Python's `"".split('.')` is `[""]`, not `[]`. -/
theorem empty_name_counterexample :
    selfTimesAt (buildTree [("", [⟨3, 1⟩])]) [] = [] ∧
      selfTimesAt (buildTree [("", [⟨3, 1⟩])]) [""] = [⟨3, 1⟩] :=
  ⟨rfl, rfl⟩

theorem splitListOn_ne_nil (c : Char) (l : List Char) :
    splitListOn c l ≠ [] := by
  cases l with
  | nil => simp [splitListOn]
  | cons a as =>
    simp only [splitListOn]
    by_cases h : a = c
    · simp [h]
    · rw [if_neg h]
      cases splitListOn c as <;> simp

theorem splitDot_ne_nil (k : String) : splitDot k ≠ [] := by
  simp only [splitDot, ne_eq, List.map_eq_nil_iff]
  exact splitListOn_ne_nil _ _

theorem splitListOn_eq_single_nil (c : Char) (l : List Char)
    (h : splitListOn c l = [[]]) : l = [] := by
  cases l with
  | nil => rfl
  | cons a as =>
    exfalso
    simp only [splitListOn] at h
    by_cases hac : a = c
    · rw [if_pos hac] at h
      have := List.cons.injEq ([] : List Char) (splitListOn c as) [] []
      rw [List.cons.injEq] at h
      exact splitListOn_ne_nil c as h.2
    · rw [if_neg hac] at h
      cases hs : splitListOn c as with
      | nil => exact splitListOn_ne_nil c as hs
      | cons g gs =>
        rw [hs, List.cons.injEq] at h
        exact List.cons_ne_nil a g (by rw [h.1])

theorem splitDot_eq_single_empty (k : String) :
    splitDot k = [""] ↔ k = "" := by
  constructor
  · intro h
    simp only [splitDot] at h
    have hlen : (splitListOn '.' k.toList).length = 1 := by
      have := congrArg List.length h
      simpa using this
    obtain ⟨g, hg⟩ : ∃ g, splitListOn '.' k.toList = [g] := by
      cases hs : splitListOn '.' k.toList with
      | nil => exact absurd hs (splitListOn_ne_nil _ _)
      | cons g gs =>
        rw [hs] at hlen
        simp at hlen
        exact ⟨g, by rw [hlen]⟩
    rw [hg] at h
    simp only [List.map_cons, List.map_nil, List.cons.injEq] at h
    have hgnil : g = [] := by
      have : (String.mk g).data = ("" : String).data := by rw [h.1]
      simpa using this
    have : k.toList = [] := splitListOn_eq_single_nil _ _ (hgnil ▸ hg)
    cases k with
    | mk d =>
      have hd : d = [] := by simpa [String.toList] using this
      rw [hd]
  · intro h
    subst h
    rfl

theorem filter_key_eq_single (s : AllTimes) (k : String) (v : List Frac)
    (hnd : (s.map Prod.fst).Nodup) (hmem : (k, v) ∈ s) :
    s.filter (fun kv => kv.1 == k) = [(k, v)] := by
  induction s with
  | nil => cases hmem
  | cons hd rest ih =>
    obtain ⟨a, b⟩ := hd
    simp only [List.map_cons, List.nodup_cons] at hnd
    rcases List.mem_cons.mp hmem with heq | hrest
    · obtain ⟨hk, hv⟩ := Prod.mk.injEq .. ▸ heq.symm
      subst hk
      subst hv
      have hnil : rest.filter (fun kv => kv.1 == a) = [] := by
        rw [List.filter_eq_nil_iff]
        intro kv hkv
        simp only [beq_iff_eq]
        intro hfst
        exact hnd.1 (hfst ▸ List.mem_map_of_mem Prod.fst hkv)
      simp [List.filter_cons, hnil]
    · have hka : a ≠ k := by
        intro h
        subst h
        exact hnd.1 (List.mem_map_of_mem Prod.fst hrest)
      have : ((a, b).1 == k) = false := by
        simp [hka]
      simp only [List.filter_cons, this, Bool.false_eq_true, if_neg]
      exact ih hnd.2 hrest

/-- C3 amended: in a recorder state (unique keys) containing the empty dotted
name, the samples recorded under `""` attach to the child of root named `""`
(Python's `"".split('.')` is `[""]`), while the root's own `self_times` stays
empty. -/
theorem empty_name_attaches_to_empty_child (s : AllTimes) (vs : List Frac)
    (hnd : (s.map Prod.fst).Nodup) (hmem : ("", vs) ∈ s) :
    selfTimesAt (buildTree s) [""] = vs ∧
      selfTimesAt (buildTree s) [] = [] := by
  have hfold := selfTimesAt_foldl s (.mk [] []) [""]
  have hfold0 := selfTimesAt_foldl s (.mk [] []) []
  rw [selfTimesAt_empty_node, List.nil_append] at hfold hfold0
  constructor
  · rw [show selfTimesAt (buildTree s) [""] =
      ((s.filter (fun kv => splitDot kv.1 == [""])).map Prod.snd).flatten
      from hfold]
    have hcong : s.filter (fun kv => splitDot kv.1 == [""]) =
        s.filter (fun kv => kv.1 == "") := by
      apply List.filter_congr
      intro kv _
      simp [splitDot_eq_single_empty]
    rw [hcong, filter_key_eq_single s "" vs hnd hmem]
    simp
  · rw [show selfTimesAt (buildTree s) [] =
      ((s.filter (fun kv => splitDot kv.1 == [])).map Prod.snd).flatten
      from hfold0]
    have : s.filter (fun kv => splitDot kv.1 == []) = [] := by
      rw [List.filter_eq_nil_iff]
      intro kv _
      simp [splitDot_ne_nil]
    rw [this]
    simp

/-- Witness for the amended C3 at the concrete state `{"": [3.0]}`. -/
theorem empty_name_attaches_to_empty_child_witness :
    selfTimesAt (buildTree [("", [⟨3, 1⟩])]) [""] = [⟨3, 1⟩] ∧
      selfTimesAt (buildTree [("", [⟨3, 1⟩])]) [] = [] :=
  empty_name_attaches_to_empty_child [("", [⟨3, 1⟩])] [⟨3, 1⟩]
    (by decide) (by decide)

/-- C6: recording under `"x.y"` and `"x.z"` produces exactly one child of
root, named `"x"`, which has exactly the two children `"y"` and `"z"`, holding
the two sample lists independently. -/
theorem tree_sharing (v1 v2 : List Frac) :
    buildTree [("x.y", v1), ("x.z", v2)] =
      .mk [] [("x", .mk [] [("y", .mk v1 []), ("z", .mk v2 [])])] := rfl

/-- C7: generating the report is a pure function of the recorder state: the
state component returned by `print_timing_summary` is the input state, and
running the report again on that state prints the same output. -/
theorem report_idempotent (s : AllTimes) :
    (print_timing_summary s).2 = s ∧
      (print_timing_summary ((print_timing_summary s).2)).1 =
        (print_timing_summary s).1 :=
  ⟨rfl, rfl⟩

/-- C8: a `Timer` created with `enabled=False` never creates its start or end
markers, its enter is a no-op on the timer, and its exit is a no-op on both
the timer and the recorder state (no sample appended, no key created). -/
theorem disabled_timer_noop (name : String) (now1 now2 : Frac) (s : AllTimes) :
    (Timer.init name false).start = none ∧
      (Timer.init name false).stop = none ∧
      (Timer.init name false).enter now1 = some (Timer.init name false) ∧
      (Timer.init name false).exit now2 s = some (Timer.init name false, s) :=
  ⟨rfl, rfl, rfl, rfl⟩

theorem indentStr_length (n : Nat) : (indentStr n).length = 4 * n := by
  induction n with
  | zero => rfl
  | succ m ih =>
    rw [indentStr, String.length_append, ih]
    have h4 : ("    " : String).length = 4 := rfl
    rw [h4]
    omega

theorem Frac.val_divNat (a : Frac) (n : Nat) :
    (a.divNat n).val = a.val / (n : ℚ) := by
  simp only [Frac.divNat, Frac.val]
  push_cast
  rw [div_div]

mutual

theorem lines_shape : ∀ (t : Node) (name : String) (ind : Nat) (l : String),
    l ∈ Node.lines t name ind →
      ∃ nm i st, nm ≠ "" ∧ ind ≤ i ∧ l = fmtLine nm i st
  | .mk st ch, name, ind, l => by
    intro hl
    rw [Node.lines] at hl
    rcases List.mem_append.mp hl with h1 | h2
    · by_cases hn : name = ""
      · rw [if_pos hn] at h1
        cases h1
      · rw [if_neg hn] at h1
        exact ⟨name, ind, st, hn, Nat.le_refl _, List.mem_singleton.mp h1⟩
    · obtain ⟨nm, i, st', hnm, hle, heq⟩ := childLines_shape ch (ind + 1) l h2
      exact ⟨nm, i, st', hnm, Nat.le_trans (Nat.le_succ ind) hle, heq⟩

theorem childLines_shape :
    ∀ (ch : List (String × Node)) (ind : Nat) (l : String),
    l ∈ childLines ch ind →
      ∃ nm i st, nm ≠ "" ∧ ind ≤ i ∧ l = fmtLine nm i st
  | [], ind, l => by
    intro hl
    rw [childLines] at hl
    cases hl
  | (cn, c) :: rest, ind, l => by
    intro hl
    rw [childLines] at hl
    rcases List.mem_append.mp hl with h1 | h2
    · exact lines_shape c cn ind l h1
    · exact childLines_shape rest ind l h2

end

mutual

theorem lines_length : ∀ (t : Node) (name : String) (ind : Nat),
    (Node.lines t name ind).length = countNamed t name
  | .mk st ch, name, ind => by
    rw [Node.lines, countNamed, List.length_append]
    by_cases hn : name = "" <;>
      simp [hn, childLines_length ch (ind + 1)]

theorem childLines_length : ∀ (ch : List (String × Node)) (ind : Nat),
    (childLines ch ind).length = countNamedChildren ch
  | [], ind => by simp [childLines, countNamedChildren]
  | (cn, c) :: rest, ind => by
    rw [childLines, countNamedChildren, List.length_append,
      lines_length c cn ind, childLines_length rest ind]

end

/-- C4 counterexample: on the state `{"a": [1.0]}`, the single node line of
the report contains no TAB character at all; the padded name is followed by a
single space before the word `total` (source line 60). -/
theorem tab_format_counterexample :
    nodeLinesOf [("a", [⟨1, 1⟩])] =
        ["    a               total 1 ms   1 runs   avg 1.00 ms"] ∧
      ("    a               total 1 ms   1 runs   avg 1.00 ms".toList.contains
        '\t') = false := by decide

/-- C4 amended: the first printed string is the header
`"\n=== timing summary ==="`, and every further printed line is
`<indent><name padded to 15><SPACE>total <total:.0f> ms   <count> runs   avg
<avg:.2f> ms` — a single space, not a TAB, between the padded name and
`total` — where the indent is four spaces per level and every printed node
sits at level at least 1. -/
theorem line_format (s : AllTimes) :
    (print_timing_summary s).1.head? = some "\n=== timing summary ===" ∧
      ∀ l ∈ (print_timing_summary s).1.tail,
        ∃ nm i st, nm ≠ "" ∧ 1 ≤ i ∧ (indentStr i).length = 4 * i ∧
          l = indentStr i ++ padTo 15 nm ++ " total " ++ fmtF0 (fsum st) ++
            " ms   " ++ toString st.length ++ " runs   avg " ++
            fmtF2 (avgOf st) ++ " ms" := by
  refine ⟨rfl, ?_⟩
  intro l hl
  have htail : (print_timing_summary s).1.tail =
      Node.lines (buildTree s) "" 0 := rfl
  rw [htail] at hl
  cases hroot : buildTree s with
  | mk st0 ch0 =>
    rw [hroot, Node.lines, if_pos rfl, List.nil_append] at hl
    obtain ⟨nm, i, st, hnm, hle, heq⟩ := childLines_shape ch0 1 l hl
    exact ⟨nm, i, st, hnm, hle, indentStr_length i, heq.trans rfl⟩

/-- Witness for the amended C4 at the concrete state `{"a": []}`. -/
theorem line_format_witness :
    (print_timing_summary [("a", ([] : List Frac))]).1.head? =
        some "\n=== timing summary ===" ∧
      ∃ nm i st, nm ≠ "" ∧ 1 ≤ i ∧ (indentStr i).length = 4 * i ∧
        "    a               total 0 ms   0 runs   avg 0.00 ms" =
          indentStr i ++ padTo 15 nm ++ " total " ++ fmtF0 (fsum st) ++
            " ms   " ++ toString st.length ++ " runs   avg " ++
            fmtF2 (avgOf st) ++ " ms" :=
  ⟨(line_format [("a", [])]).1,
    (line_format [("a", [])]).2 _ (by decide)⟩

/-- C5 counterexample: on the state `{".x": [1.0]}`, root has one child named
`""`, which has zero self-samples and a non-empty set of children, yet the
report prints only one node line (for `"x"`) although the tree has two
non-root nodes — the empty-named namespace node is skipped, not printed. -/
theorem empty_segment_node_skipped :
    childNamesAt (buildTree [(".x", [⟨1, 1⟩])]) [] = [""] ∧
      selfTimesAt (buildTree [(".x", [⟨1, 1⟩])]) [""] = [] ∧
      childNamesAt (buildTree [(".x", [⟨1, 1⟩])]) [""] = ["x"] ∧
      (buildTree [(".x", [⟨1, 1⟩])]).size = 3 ∧
      (nodeLinesOf [(".x", [⟨1, 1⟩])]).length = 1 := by decide

/-- C5 amended: the report prints exactly one line per node whose own segment
name is non-empty (so pure namespace nodes with a non-empty name are printed,
with total 0, count 0, avg 0.0, as the concrete `{"b.c": [1.0]}` state shows),
while empty-named nodes are visited but not printed; at every printed node the
avg is `total/count` when `count > 0` and `0.0` when `count = 0`. -/
theorem printed_nodes_and_avg (s : AllTimes) :
    (nodeLinesOf s).length = countNamed (buildTree s) "" ∧
      (∀ st : List Frac, st.length ≠ 0 →
        (avgOf st).val = (fsum st).val / (st.length : ℚ)) ∧
      (∀ st : List Frac, st.length = 0 → avgOf st = ⟨0, 1⟩) ∧
      nodeLinesOf [("b.c", [⟨1, 1⟩])] =
        ["    b               total 0 ms   0 runs   avg 0.00 ms",
          "        c               total 1 ms   1 runs   avg 1.00 ms"] := by
  refine ⟨lines_length (buildTree s) "" 0, ?_, ?_, by decide⟩
  · intro st h
    rw [avgOf, if_neg h, Frac.val_divNat]
  · intro st h
    rw [avgOf, if_pos h]

/-- Witness for the amended C5: the avg clauses applied at `[2.0]` and `[]`. -/
theorem printed_nodes_and_avg_witness :
    ((([⟨2, 1⟩] : List Frac).length ≠ 0 ∧
        (avgOf [⟨2, 1⟩]).val =
          (fsum [⟨2, 1⟩]).val / (([⟨2, 1⟩] : List Frac).length : ℚ))) ∧
      (([] : List Frac).length = 0 ∧ avgOf ([] : List Frac) = ⟨0, 1⟩) :=
  ⟨⟨by decide, (printed_nodes_and_avg []).2.1 [⟨2, 1⟩] (by decide)⟩,
    ⟨rfl, (printed_nodes_and_avg []).2.2.1 [] rfl⟩⟩

theorem nodeAt_extend_append : ∀ (p1 : List String) (t : Node)
    (vs : List Frac) (p2 : List String),
    ((t.extend (p1 ++ p2) vs).nodeAt p1).isSome = true := by
  intro p1
  induction p1 with
  | nil =>
    intro t vs p2
    simp [Node.nodeAt]
  | cons a as ih =>
    intro t vs p2
    cases t with
    | mk st ch =>
      simp only [List.cons_append, Node.extend, Node.nodeAt, Node.children,
        Node.self_times]
      rw [findChild_setChild, if_pos rfl]
      exact ih _ vs p2

theorem nodeAt_extend_mono : ∀ (p : List String) (t : Node)
    (q : List String) (vs : List Frac),
    (t.nodeAt p).isSome = true → ((t.extend q vs).nodeAt p).isSome = true := by
  intro p
  induction p with
  | nil =>
    intro t q vs _
    simp [Node.nodeAt]
  | cons b bs ih =>
    intro t q vs h
    cases t with
    | mk st ch =>
      cases hf : findChild ch b with
      | none =>
        exfalso
        simp [Node.nodeAt, Node.children, hf] at h
      | some c =>
        have hc : (c.nodeAt bs).isSome = true := by
          simpa [Node.nodeAt, Node.children, hf] using h
        cases q with
        | nil =>
          simpa [Node.extend, Node.nodeAt, Node.children, hf] using h
        | cons a as =>
          simp only [Node.extend, Node.nodeAt, Node.children, Node.self_times]
          rw [findChild_setChild]
          by_cases hba : b = a
          · subst hba
            rw [if_pos rfl]
            have hg : getChild ch b = c := by simp [getChild, hf]
            rw [hg]
            exact ih c as vs hc
          · rw [if_neg hba, hf]
            exact hc

theorem nodeAt_foldl_mono : ∀ (l : AllTimes) (t : Node) (p : List String),
    (t.nodeAt p).isSome = true →
      ((l.foldl (fun root kv => root.extend (splitDot kv.1) kv.2) t).nodeAt
        p).isSome = true := by
  intro l
  induction l with
  | nil =>
    intro t p h
    simpa using h
  | cons kv rest ih =>
    intro t p h
    simp only [List.foldl_cons]
    exact ih _ p (nodeAt_extend_mono p t _ kv.2 h)

/-- C9: tree construction and report generation are total over malformed
dotted names — for every recorded name, every decomposition of its split into
a front part and a rest yields a node at the front part's path (so each empty
segment becomes a literal, zero-length path component with its own node), and
the report still prints its header. -/
theorem malformed_names_build_nodes (s : AllTimes) (k : String)
    (v : List Frac) (hmem : (k, v) ∈ s) (p1 p2 : List String)
    (hsplit : splitDot k = p1 ++ p2) :
    ((buildTree s).nodeAt p1).isSome = true ∧
      (print_timing_summary s).1.head? = some "\n=== timing summary ===" := by
  refine ⟨?_, rfl⟩
  obtain ⟨l1, l2, rfl⟩ := List.append_of_mem hmem
  simp only [buildTree, List.foldl_append, List.foldl_cons]
  apply nodeAt_foldl_mono
  rw [hsplit]
  exact nodeAt_extend_append p1 _ v p2

/-- Witness for C9 at the malformed name `"a..b"` and its empty middle
segment: the node at path `["a", ""]` exists. -/
theorem malformed_names_build_nodes_witness :
    (("a..b", [(⟨1, 1⟩ : Frac)]) ∈ ([("a..b", [⟨1, 1⟩])] : AllTimes)) ∧
      splitDot "a..b" = ["a", ""] ++ ["b"] ∧
      ((buildTree [("a..b", [⟨1, 1⟩])]).nodeAt ["a", ""]).isSome = true :=
  ⟨by decide, by decide,
    (malformed_names_build_nodes [("a..b", [⟨1, 1⟩])] "a..b" [⟨1, 1⟩]
      (by decide) ["a", ""] ["b"] (by decide)).1⟩

/-- C10: a node whose own segment name is empty is never printed, but its
children are still visited, at one indentation level deeper than the node's
own; every printed line belongs to a node with a non-empty name, and samples
recorded under names whose final segment is empty (`"a."`, `""`) produce no
line of their own. -/
theorem empty_named_node_not_printed :
    (∀ (st : List Frac) (ch : List (String × Node)) (ind : Nat),
        Node.lines (Node.mk st ch) "" ind = childLines ch (ind + 1)) ∧
      (∀ s : AllTimes, ∀ l ∈ nodeLinesOf s,
        ∃ nm i st, nm ≠ "" ∧ l = fmtLine nm i st) ∧
      nodeLinesOf [("a.", [⟨1, 1⟩])] = [fmtLine "a" 1 []] ∧
      nodeLinesOf [("", [⟨3, 1⟩])] = [] := by
  refine ⟨?_, ?_, by decide, by decide⟩
  · intro st ch ind
    rw [Node.lines, if_pos rfl, List.nil_append]
  · intro s l hl
    obtain ⟨nm, i, st, hnm, _, heq⟩ := lines_shape (buildTree s) "" 0 l hl
    exact ⟨nm, i, st, hnm, heq⟩

/-- Witness for C10: the node-line shape clause applied to the one line of
the `{"a.": [1.0]}` report. -/
theorem empty_named_node_not_printed_witness :
    Node.lines (Node.mk [(⟨1, 1⟩ : Frac)] []) "" 0 = childLines [] 1 ∧
      ∃ nm i st, nm ≠ "" ∧ fmtLine "a" 1 [] = fmtLine nm i st :=
  ⟨empty_named_node_not_printed.1 [⟨1, 1⟩] [] 0,
    empty_named_node_not_printed.2.1 [("a.", [⟨1, 1⟩])] (fmtLine "a" 1 [])
      (by decide)⟩
